import Mathlib

/-!
Verification development for the BrainDump note-folding system.

The Python sources are embedded shallowly:
strings become lists of characters, the file tree becomes an association
list from path to content, and fallible operations return Except values.
The embedding follows src/lib/ai_builder.py (FileParser, FileModifier)
and src/app.py (generate_diff, get_new_notes_since_revision,
regenerate_document_worker).
-/

set_option autoImplicit false

/-- A Python string, modelled as its list of characters. -/
abbrev Str := List Char

deriving instance DecidableEq for Except

/-- The newline character. -/
def nl : Char := Char.ofNat 10

/-- Python whitespace test, the default class of str.strip and
str.isspace in CPython: tab through carriage return (9 to 13), the
file, group, record and unit separators (28 to 31), space (32), next
line (133), no-break space (160), ogham space mark (5760), the range
en quad through hair space (8192 to 8202), line separator (8232),
paragraph separator (8233), narrow no-break space (8239), medium
mathematical space (8287) and ideographic space (12288). -/
def pyIsSpace (c : Char) : Bool :=
  decide (9 ≤ c.toNat ∧ c.toNat ≤ 13) ||
  decide (28 ≤ c.toNat ∧ c.toNat ≤ 31) ||
  c.toNat == 32 || c.toNat == 133 || c.toNat == 160 || c.toNat == 5760 ||
  decide (8192 ≤ c.toNat ∧ c.toNat ≤ 8202) ||
  c.toNat == 8232 || c.toNat == 8233 || c.toNat == 8239 ||
  c.toNat == 8287 || c.toNat == 12288

/-- Does the pattern occur at the very start of the string? -/
def begins : Str → Str → Bool
  | [], _ => true
  | _ :: _, [] => false
  | p :: pat, c :: s => p == c && begins pat s

/-- The Python membership test pat in s: does pat occur as a contiguous
substring of s?  An empty pattern occurs in every string. -/
def occursIn (pat : Str) : Str → Bool
  | [] => pat.isEmpty
  | c :: s => begins pat (c :: s) || occursIn pat s

/-- Left-to-right non-overlapping replacement of a nonempty pattern,
the scan of Python str.replace.  The fuel argument only forces
structural termination; every call site passes at least the length of
the string, which is enough because each step consumes a character. -/
def replaceAllAux (pat rep : Str) : Nat → Str → Str
  | _, [] => []
  | 0, s => s
  | fuel + 1, c :: s =>
    if begins pat (c :: s) then
      rep ++ replaceAllAux pat rep fuel (List.drop (pat.length - 1) s)
    else
      c :: replaceAllAux pat rep fuel s

/-- Python str.replace(pat, rep): replaces every non-overlapping
occurrence, scanning left to right.  An empty pattern inserts rep
before every character and at the end. -/
def replaceAll (pat rep : Str) (s : Str) : Str :=
  match pat with
  | [] => rep ++ s.foldr (fun c acc => c :: (rep ++ acc)) []
  | _ :: _ => replaceAllAux pat rep s.length s

/-- Python sep.join for a list of strings. -/
def intercal (sep : Str) : List Str → Str
  | [] => []
  | [x] => x
  | x :: y :: rest => x ++ sep ++ intercal sep (y :: rest)

/-- Python "\n".join. -/
def joinNL (ls : List Str) : Str := intercal (nl :: []) ls

/-- Python s.split over the newline separator: no collapsing of empty
fields, and the empty string splits to one empty field. -/
def splitNl : Str → List Str
  | [] => [[]]
  | c :: s =>
    if c = nl then [] :: splitNl s
    else
      match splitNl s with
      | [] => [c :: []]
      | l :: ls => (c :: l) :: ls

/-- Python str.strip(): remove leading and trailing whitespace. -/
def pyStrip (s : Str) : Str :=
  List.reverse (List.dropWhile pyIsSpace (List.reverse (List.dropWhile pyIsSpace s)))

/-- The payload processing shared by FileParser private parse helpers:
group(1).strip().split over newline. -/
def parse_payload (raw : Str) : List Str := splitNl (pyStrip raw)

/-- One parsed edit instruction, the tagged dictionaries built by
FileParser underscore parse underscore actions. -/
inductive AiAction where
  | create_file (file_content : List Str)
  | remove_file
  | replace_file (file_content : List Str)
  | replace_section (original_content : Str) (file_content : List Str)
deriving DecidableEq

/-- The content processing of FileParser for a create action payload:
the matched group is stripped and split into lines. -/
def parse_create_action (payload : Str) : AiAction :=
  AiAction.create_file (parse_payload payload)

/-- The content processing of FileParser for a replace file payload. -/
def parse_replace_file_action (payload : Str) : AiAction :=
  AiAction.replace_file (parse_payload payload)

/-- The content processing of FileParser for a replace section payload:
the original content group is stripped without splitting, the file
content group is stripped and split into lines. -/
def parse_replace_section_action (orig payload : Str) : AiAction :=
  AiAction.replace_section (pyStrip orig) (parse_payload payload)

/-- A file path. -/
abbrev FileName := List Char

/-- The persisted file tree: an association list from path to content.
Directory structure is not modelled. -/
abbrev FS := List (FileName × Str)

/-- Read a file; none when the path does not exist. -/
def fsRead : FS → FileName → Option Str
  | [], _ => none
  | (q, c) :: rest, p => if q = p then some c else fsRead rest p

/-- Write a file, creating it or overwriting its content in place. -/
def fsWrite : FS → FileName → Str → FS
  | [], p, c => (p, c) :: []
  | (q, d) :: rest, p, c =>
    if q = p then (q, c) :: rest else (q, d) :: fsWrite rest p c

/-- Remove a file. -/
def fsRemove : FS → FileName → FS
  | [], _ => []
  | (q, c) :: rest, p =>
    if q = p then fsRemove rest p else (q, c) :: fsRemove rest p

/-- os.path.exists / os.path.isfile on the modelled tree. -/
def fsExists (fs : FS) (p : FileName) : Bool := (fsRead fs p).isSome

/-- The backup path used by FileModifier: the file path with a .bak
suffix appended. -/
def bakName (p : FileName) : FileName := p ++ (".bak").data

/-- FileModifier private replace section helper.  Reading a missing
file raises, modelled as an error result; when the original content
occurs in the file the whole content goes through str.replace and is
written back, otherwise the file is untouched and false is returned. -/
def replace_section (fs : FS) (filepath : FileName)
    (original_content : Str) (new_content : List Str) :
    Except Unit (FS × Bool) :=
  match fsRead fs filepath with
  | none => Except.error ()
  | some content =>
    let new_section_str := joinNL new_content
    if occursIn original_content content then
      Except.ok
        (fsWrite fs filepath (replaceAll original_content new_section_str content), true)
    else
      Except.ok (fs, false)

/-- FileModifier private apply action helper: dispatch on the action
type.  The boolean mirrors the Python return value; an error result
models an exception propagating to apply underscore modifications. -/
def apply_action (fs : FS) (filepath : FileName) : AiAction → Except Unit (FS × Bool)
  | AiAction.create_file lines =>
    Except.ok (fsWrite fs filepath (joinNL lines ++ nl :: []), true)
  | AiAction.remove_file =>
    if fsExists fs filepath then Except.ok (fsRemove fs filepath, true)
    else Except.ok (fs, false)
  | AiAction.replace_file lines =>
    Except.ok (fsWrite fs filepath (joinNL lines ++ nl :: []), true)
  | AiAction.replace_section orig lines => replace_section fs filepath orig lines

/-- The inner loop of FileModifier apply underscore modifications over
one change block: each action runs in turn; a false return records the
action as incomplete; an exception records the action and restores the
target from its backup file when that backup exists. -/
def apply_actions (filepath : FileName) (fs : FS) :
    List AiAction → FS × List (FileName × AiAction)
  | [] => (fs, [])
  | a :: rest =>
    match apply_action fs filepath a with
    | Except.ok (fs1, ok) =>
      let res := apply_actions filepath fs1 rest
      (res.1, if ok then res.2 else (filepath, a) :: res.2)
    | Except.error _ =>
      let fs1 :=
        match fsRead fs (bakName filepath) with
        | some b => fsWrite fs filepath b
        | none => fs
      let res := apply_actions filepath fs1 rest
      (res.1, (filepath, a) :: res.2)

/-- One change block: a target path and its ordered actions. -/
structure Change where
  file : FileName
  actions : List AiAction
deriving DecidableEq

/-- The backup step at the head of the block loop: an existing target
is copied to its .bak path before any action of the block runs. -/
def block_start (fs : FS) (p : FileName) : FS :=
  match fsRead fs p with
  | some c => fsWrite fs (bakName p) c
  | none => fs

/-- Processing of one change block by apply underscore modifications. -/
def apply_block (fs : FS) (ch : Change) : FS × List (FileName × AiAction) :=
  apply_actions ch.file (block_start fs ch.file) ch.actions

/-- FileModifier.apply underscore modifications with dry run off: the
blocks run in order and the incomplete actions accumulate in order.
Totality of this definition reflects that the Python loop catches every
per-action exception instead of raising to its caller. -/
def apply_modifications (fs : FS) : List Change → FS × List (FileName × AiAction)
  | [] => (fs, [])
  | ch :: rest =>
    let r1 := apply_block fs ch
    let r2 := apply_modifications r1.1 rest
    (r2.1, r1.2 ++ r2.2)

/-- Did this action fail, either by returning false or by raising? -/
def action_fails (fs : FS) (p : FileName) (a : AiAction) : Bool :=
  match apply_action fs p a with
  | Except.ok (_, ok) => !ok
  | Except.error _ => true

/-- The state the block loop continues from after an action: the new
tree on a normal return, the backup-restored tree on an exception. -/
def state_after_fail (fs : FS) (p : FileName) (a : AiAction) : FS :=
  match apply_action fs p a with
  | Except.ok (fs1, _) => fs1
  | Except.error _ =>
    match fsRead fs (bakName p) with
    | some b => fsWrite fs p b
    | none => fs

/-- Opcode tags of difflib.SequenceMatcher.get underscore opcodes. -/
inductive DiffTag where
  | equal
  | replace
  | delete
  | insert
deriving DecidableEq

/-- One opcode (tag, i1, i2, j1, j2) over the two compared texts. -/
structure Opcode where
  tag : DiffTag
  i1 : Nat
  i2 : Nat
  j1 : Nat
  j2 : Nat
deriving DecidableEq

/-- Python slicing s[a:b] for 0 <= a <= b within bounds. -/
def pySlice (s : Str) (a b : Nat) : Str := (s.drop a).take (b - a)

/-- The rendering of one opcode inside generate underscore diff: equal
spans produce nothing, the others produce one entry each. -/
def opcode_line (old_content new_content : Str) (op : Opcode) : Option Str :=
  match op.tag with
  | DiffTag.equal => none
  | DiffTag.replace =>
    some (("Changed: ").data ++ pySlice new_content op.j1 op.j2)
  | DiffTag.delete =>
    some (("Removed: ").data ++ pySlice old_content op.i1 op.i2)
  | DiffTag.insert =>
    some (("Added: ").data ++ pySlice new_content op.j1 op.j2)

/-- The diff underscore lines list built by generate underscore diff. -/
def diff_lines (old_content new_content : Str) (ops : List Opcode) : List Str :=
  ops.filterMap (opcode_line old_content new_content)

/-- generate underscore diff of src/app.py.  The call into
difflib.SequenceMatcher is an external library call; it is abstracted
by taking its opcode list as an argument, constrained elsewhere by
opcodesValid.  The first ten entries are joined with newlines. -/
def generate_diff (old_content new_content : Str) (ops : List Opcode) : Str :=
  joinNL ((diff_lines old_content new_content ops).take 10)

/-- Number of newline characters in a string. -/
def countNl : Str → Nat
  | [] => 0
  | c :: s => (if c = nl then 1 else 0) + countNl s

/-- Number of physical text lines of a string, one more than its
newline count. -/
def numLines (s : Str) : Nat := countNl s + 1

/-- Structural soundness of a single opcode, following the documented
contract of get underscore opcodes: equal spans carry identical slices
of equal positive length, a replace spans both sides, a delete only the
old side, an insert only the new side. -/
def opcodeOk (old_content new_content : Str) (op : Opcode) : Bool :=
  match op.tag with
  | DiffTag.equal =>
    decide (op.i1 < op.i2) && (op.i2 - op.i1 == op.j2 - op.j1) &&
    decide (pySlice old_content op.i1 op.i2 = pySlice new_content op.j1 op.j2)
  | DiffTag.replace => decide (op.i1 < op.i2) && decide (op.j1 < op.j2)
  | DiffTag.delete => decide (op.i1 < op.i2) && (op.j1 == op.j2)
  | DiffTag.insert => (op.i1 == op.i2) && decide (op.j1 < op.j2)

/-- The opcodes form a contiguous cover of both texts starting at the
given positions. -/
def opcodesFrom (old_content new_content : Str) (i j : Nat) : List Opcode → Bool
  | [] => (i == old_content.length) && (j == new_content.length)
  | op :: ops =>
    (op.i1 == i) && (op.j1 == j) && opcodeOk old_content new_content op &&
    opcodesFrom old_content new_content op.i2 op.j2 ops

/-- A full opcode list as get underscore opcodes returns it: a
contiguous cover of both texts from position zero. -/
def opcodesValid (old_content new_content : Str) (ops : List Opcode) : Bool :=
  opcodesFrom old_content new_content 0 0 ops

/-- A note row: id, content, created and modified timestamps, and the
soft-deleted flag.  Timestamps are abstracted to naturals, ordered as
the SQL timestamps compare. -/
structure Note where
  id : Nat
  content : Str
  created_at : Nat
  modified_at : Nat
  is_deleted : Bool
deriving DecidableEq

/-- One row of the document underscore history table. -/
structure Version where
  version_number : Nat
  timestamp : Nat
  html_content : Str
  diff_with_previous : Str
deriving DecidableEq

/-- The database state the worker reads and writes. -/
structure DB where
  notes : List Note
  history : List Version
deriving DecidableEq

/-- SELECT MAX(timestamp) FROM document underscore history, the current
watermark; none on an empty table. -/
def maxTimestamp : List Version → Option Nat
  | [] => none
  | v :: vs =>
    match maxTimestamp vs with
    | none => some v.timestamp
    | some m => some (max v.timestamp m)

/-- SELECT MAX(version underscore number) FROM document underscore
history. -/
def maxVersionNumber : List Version → Option Nat
  | [] => none
  | v :: vs =>
    match maxVersionNumber vs with
    | none => some v.version_number
    | some m => some (max v.version_number m)

/-- The head row of get underscore document underscore history, which
orders by timestamp descending: an entry of maximal timestamp.  The SQL
order among equal timestamps is unspecified; this model keeps the
earliest such row. -/
def latestVersion : List Version → Option Version
  | [] => none
  | v :: vs =>
    match latestVersion vs with
    | none => some v
    | some w => some (if w.timestamp ≤ v.timestamp then v else w)

/-- get underscore new underscore notes underscore since underscore
revision: with no previous revision every note is returned; otherwise
the rows with created or modified timestamp strictly after the
watermark.  The SQL result order is not modelled; the claims about this
query depend only on membership. -/
def get_new_notes_since_revision (db : DB) : List Note :=
  match maxTimestamp db.history with
  | none => db.notes
  | some w =>
    db.notes.filter (fun n => decide (w < n.created_at) || decide (w < n.modified_at))

/-- SELECT content FROM notes WHERE id: the first matching row. -/
def lookup_content : List Note → Nat → Option Str
  | [], _ => none
  | n :: rest, i => if n.id = i then some n.content else lookup_content rest i

/-- Decimal rendering of a note id inside an f-string. -/
def natToStr (n : Nat) : Str := (Nat.repr n).data

/-- The instruction line regenerate underscore document underscore
worker renders for one batched note: ADDED when created equals
modified, DELETED when the soft-deleted flag is set, CHANGED otherwise,
the CHANGED text re-fetching the content column of the same row. -/
def instruction_for_note (notes : List Note) (n : Note) : Str :=
  if n.created_at = n.modified_at then
    ("ADDED: New content block:\n").data ++ n.content
  else if n.is_deleted then
    ("DELETED: Existing content block:\n").data ++ n.content
  else
    match lookup_content notes n.id with
    | some orig =>
      ("CHANGED: Note ID ").data ++ natToStr n.id ++ (" modified from:\n").data ++
      orig ++ ("\n\nTO:\n").data ++ n.content
    | none =>
      ("CHANGED: Note ID ").data ++ natToStr n.id ++ (" modified to:\n").data ++
      n.content

/-- One batching-to-commit cycle of regenerate underscore document
underscore worker after a wakeup token is consumed.  The generation
collaborator and the diff over the previous version are passed in as
functions; now is the commit timestamp.  An empty batch returns the
database unchanged, committing nothing. -/
def worker_pass (gen : Str → Str → Str) (diffFn : Str → Str → Str) (now : Nat)
    (db : DB) : DB :=
  match get_new_notes_since_revision db with
  | [] => db
  | n :: rest =>
    let new_notes := n :: rest
    let latest := latestVersion db.history
    let latest_html :=
      match latest with
      | some v => v.html_content
      | none => []
    let instructions := new_notes.map (instruction_for_note db.notes)
    let instructions_text := intercal (nl :: nl :: []) instructions
    let html_content := gen latest_html instructions_text
    let version_number :=
      (match maxVersionNumber db.history with
       | none => 0
       | some m => m) + 1
    let diff :=
      match latest with
      | some v => diffFn v.html_content html_content
      | none => []
    DB.mk db.notes
      (db.history ++ (Version.mk version_number now html_content diff) :: [])

/-! Helper lemmas about the string model. -/

theorem replaceAllAux_nil (pat rep : Str) (f : Nat) :
    replaceAllAux pat rep f [] = [] := by
  cases f <;> rfl

theorem replaceAllAux_fuel (pat rep : Str) :
    ∀ f1 f2 s, s.length ≤ f1 → s.length ≤ f2 →
      replaceAllAux pat rep f1 s = replaceAllAux pat rep f2 s := by
  intro f1
  induction f1 with
  | zero =>
    intro f2 s hs1 _
    have : s = [] := List.eq_nil_of_length_eq_zero (Nat.le_zero.mp hs1)
    subst this
    rw [replaceAllAux_nil, replaceAllAux_nil]
  | succ f1 ih =>
    intro f2 s hs1 hs2
    match s with
    | [] => rw [replaceAllAux_nil, replaceAllAux_nil]
    | c :: s =>
      match f2 with
      | 0 => simp at hs2
      | f2 + 1 =>
        simp only [replaceAllAux]
        by_cases hb : begins pat (c :: s) = true
        · rw [hb]
          simp only [if_true]
          rw [ih f2 (List.drop (pat.length - 1) s)
            (by simp only [List.length_cons] at hs1; rw [List.length_drop]; omega)
            (by simp only [List.length_cons] at hs2; rw [List.length_drop]; omega)]
        · rw [Bool.not_eq_true] at hb
          rw [hb]
          simp only [Bool.false_eq_true, if_false]
          rw [ih f2 s (by simp only [List.length_cons] at hs1; omega)
            (by simp only [List.length_cons] at hs2; omega)]

theorem replaceAll_nil (pat rep : Str) (hpat : ¬ pat = []) :
    replaceAll pat rep [] = [] := by
  match pat, hpat with
  | p :: pat, _ => rfl

theorem replaceAll_cons_pos (pat rep : Str) (c : Char) (s : Str)
    (hpat : ¬ pat = []) (hb : begins pat (c :: s) = true) :
    replaceAll pat rep (c :: s) =
      rep ++ replaceAll pat rep (List.drop (pat.length - 1) s) := by
  match pat, hpat with
  | p :: pat, _ =>
    show replaceAllAux (p :: pat) rep (s.length + 1) (c :: s) = _
    simp only [replaceAllAux, hb, if_true]
    congr 1
    show replaceAllAux (p :: pat) rep s.length (List.drop ((p :: pat).length - 1) s) =
      replaceAllAux (p :: pat) rep (List.drop ((p :: pat).length - 1) s).length
        (List.drop ((p :: pat).length - 1) s)
    exact replaceAllAux_fuel (p :: pat) rep s.length _ _
      (by rw [List.length_drop]; omega) le_rfl

theorem replaceAll_cons_neg (pat rep : Str) (c : Char) (s : Str)
    (hpat : ¬ pat = []) (hb : begins pat (c :: s) = false) :
    replaceAll pat rep (c :: s) = c :: replaceAll pat rep s := by
  match pat, hpat with
  | p :: pat, _ =>
    show replaceAllAux (p :: pat) rep (s.length + 1) (c :: s) = _
    simp only [replaceAllAux, hb]
    simp only [Bool.false_eq_true, if_false]
    rfl

theorem begins_append_self (S X : Str) : begins S (S ++ X) = true := by
  induction S with
  | nil => rfl
  | cons p S ih => simp [begins, ih]

theorem occursIn_false_ne_nil (S Q : Str) (h : occursIn S Q = false) :
    ¬ S = [] := by
  intro hS
  subst hS
  cases Q <;> simp [occursIn, begins] at h

theorem occursIn_append_self (S Q : Str) (hS : ¬ S = []) :
    occursIn S (S ++ Q) = true := by
  match S, hS with
  | s :: S, _ =>
    have hb : begins (s :: S) (s :: (S ++ Q)) = true := begins_append_self (s :: S) Q
    show occursIn (s :: S) (s :: (S ++ Q)) = true
    simp only [occursIn, hb, Bool.true_or]

theorem occursIn_split (S P Q : Str) (hS : ¬ S = []) :
    occursIn S (P ++ S ++ Q) = true := by
  induction P with
  | nil => simpa using occursIn_append_self S Q hS
  | cons c P ih =>
    show occursIn S (c :: (P ++ S ++ Q)) = true
    simp only [occursIn, ih, Bool.or_true]

theorem replaceAll_not_occurs (S R Q : Str) (h : occursIn S Q = false) :
    replaceAll S R Q = Q := by
  have hS := occursIn_false_ne_nil S Q h
  induction Q with
  | nil => exact replaceAll_nil S R hS
  | cons c Q ih =>
    simp only [occursIn, Bool.or_eq_false_iff] at h
    rw [replaceAll_cons_neg S R c Q hS h.1, ih h.2]

theorem replaceAll_head (S R Q : Str) (hS : ¬ S = []) :
    replaceAll S R (S ++ Q) = R ++ replaceAll S R Q := by
  match S, hS with
  | s :: S, _ =>
    have hb : begins (s :: S) ((s :: S) ++ Q) = true := begins_append_self (s :: S) Q
    rw [show (s :: S) ++ Q = s :: (S ++ Q) from rfl] at hb ⊢
    rw [replaceAll_cons_pos (s :: S) R s (S ++ Q) (by simp) hb]
    have : List.drop ((s :: S).length - 1) (S ++ Q) = Q := by
      simp only [List.length_cons, Nat.add_sub_cancel]
      exact List.drop_left S Q
    rw [this]

theorem replaceAll_skip (S R : Str) (hS : ¬ S = []) :
    ∀ P Q : Str,
      (∀ k ∈ List.range P.length, begins S (List.drop k (P ++ Q)) = false) →
      replaceAll S R (P ++ Q) = P ++ replaceAll S R Q := by
  intro P
  induction P with
  | nil => intro Q _; rfl
  | cons c P ih =>
    intro Q hP
    have h0 : begins S (c :: (P ++ Q)) = false := by
      have := hP 0 (List.mem_range.mpr (by simp))
      simpa using this
    rw [show (c :: P) ++ Q = c :: (P ++ Q) from rfl,
      replaceAll_cons_neg S R c (P ++ Q) hS h0]
    rw [ih Q]
    · rfl
    · intro k hk
      have := hP (k + 1) (List.mem_range.mpr (by
        simp only [List.length_cons]
        exact Nat.succ_lt_succ (List.mem_range.mp hk)))
      simpa using this

theorem replaceAll_decomp (S R P Q : Str) (hS : ¬ S = [])
    (hP : ∀ k ∈ List.range P.length, begins S (List.drop k (P ++ S ++ Q)) = false) :
    replaceAll S R (P ++ S ++ Q) = P ++ R ++ replaceAll S R Q := by
  rw [List.append_assoc]
  rw [replaceAll_skip S R hS P (S ++ Q)
    (by intro k hk; have := hP k hk; rwa [List.append_assoc] at this)]
  rw [replaceAll_head S R Q hS, List.append_assoc]

/-! Helper lemmas about the file tree model. -/

theorem fsRead_fsWrite_self (fs : FS) (p : FileName) (c : Str) :
    fsRead (fsWrite fs p c) p = some c := by
  induction fs with
  | nil => simp [fsWrite, fsRead]
  | cons e rest ih =>
    by_cases h : e.1 = p
    · simp [fsWrite, fsRead, h]
    · simpa [fsWrite, fsRead, h] using ih

theorem fsRead_fsWrite_ne (fs : FS) (p q : FileName) (c : Str) (h : ¬ q = p) :
    fsRead (fsWrite fs p c) q = fsRead fs q := by
  have hpq : ¬ p = q := fun hh => h hh.symm
  induction fs with
  | nil => simp [fsWrite, fsRead, hpq]
  | cons e rest ih =>
    by_cases he : e.1 = p
    · simp [fsWrite, fsRead, he, hpq]
    · by_cases heq : e.1 = q
      · simp [fsWrite, fsRead, he, heq, h]
      · simp [fsWrite, fsRead, he, heq, ih]

theorem fsRead_fsRemove_ne (fs : FS) (p q : FileName) (h : ¬ q = p) :
    fsRead (fsRemove fs p) q = fsRead fs q := by
  have hpq : ¬ p = q := fun hh => h hh.symm
  induction fs with
  | nil => rfl
  | cons e rest ih =>
    match e with
    | (r, c) =>
      by_cases hr : r = p
      · have hq : ¬ r = q := by rw [hr]; exact hpq
        simp [fsRemove, fsRead, hr, hq, hpq, ih]
      · by_cases hq : r = q
        · simp [fsRemove, fsRead, hr, hq, h]
        · simp [fsRemove, fsRead, hr, hq, ih]

theorem bakName_ne (p : FileName) : ¬ bakName p = p := by
  intro h
  have hlen := congrArg List.length h
  rw [bakName, List.length_append] at hlen
  have : ((".bak").data).length = 4 := rfl
  omega

theorem apply_action_read_ne (fs fs1 : FS) (p q : FileName) (a : AiAction)
    (ok : Bool) (hne : ¬ q = p)
    (h : apply_action fs p a = Except.ok (fs1, ok)) :
    fsRead fs1 q = fsRead fs q := by
  match a with
  | AiAction.create_file lines =>
    simp only [apply_action, Except.ok.injEq, Prod.mk.injEq] at h
    rw [← h.1, fsRead_fsWrite_ne fs p q _ hne]
  | AiAction.remove_file =>
    simp only [apply_action] at h
    by_cases he : fsExists fs p = true
    · rw [if_pos he] at h
      simp only [Except.ok.injEq, Prod.mk.injEq] at h
      rw [← h.1, fsRead_fsRemove_ne fs p q hne]
    · rw [if_neg he] at h
      simp only [Except.ok.injEq, Prod.mk.injEq] at h
      rw [← h.1]
  | AiAction.replace_file lines =>
    simp only [apply_action, Except.ok.injEq, Prod.mk.injEq] at h
    rw [← h.1, fsRead_fsWrite_ne fs p q _ hne]
  | AiAction.replace_section orig lines =>
    match hr : fsRead fs p with
    | none => simp [apply_action, replace_section, hr] at h
    | some content =>
      simp only [apply_action, replace_section, hr] at h
      by_cases ho : occursIn orig content = true
      · rw [if_pos ho] at h
        simp only [Except.ok.injEq, Prod.mk.injEq] at h
        rw [← h.1, fsRead_fsWrite_ne fs p q _ hne]
      · rw [if_neg ho] at h
        simp only [Except.ok.injEq, Prod.mk.injEq] at h
        rw [← h.1]

theorem apply_actions_read_ne (p q : FileName) (hne : ¬ q = p) :
    ∀ (as : List AiAction) (fs : FS),
      fsRead (apply_actions p fs as).1 q = fsRead fs q := by
  intro as
  induction as with
  | nil => intro fs; rfl
  | cons a rest ih =>
    intro fs
    match hap : apply_action fs p a with
    | Except.ok (fs1, ok) =>
      have hread := apply_action_read_ne fs fs1 p q a ok hne hap
      simp only [apply_actions, hap]
      rw [ih fs1, hread]
    | Except.error u =>
      simp only [apply_actions, hap]
      match hb : fsRead fs (bakName p) with
      | some b =>
        simp only
        rw [ih (fsWrite fs p b), fsRead_fsWrite_ne fs p q b hne]
      | none =>
        simp only
        rw [ih fs]

theorem apply_actions_append (p : FileName) :
    ∀ (xs : List AiAction) (fs : FS) (ys : List AiAction),
      apply_actions p fs (xs ++ ys) =
        ((apply_actions p (apply_actions p fs xs).1 ys).1,
         (apply_actions p fs xs).2 ++ (apply_actions p (apply_actions p fs xs).1 ys).2) := by
  intro xs
  induction xs with
  | nil => intro fs ys; rfl
  | cons a rest ih =>
    intro fs ys
    match hap : apply_action fs p a with
    | Except.ok (fs1, ok) =>
      simp only [List.cons_append, apply_actions, hap, List.append_eq]
      rw [ih fs1 ys]
      cases ok <;> simp
    | Except.error u =>
      simp only [List.cons_append, apply_actions, hap, List.append_eq]
      match hb : fsRead fs (bakName p) with
      | some b =>
        simp only
        rw [ih (fsWrite fs p b) ys]
      | none =>
        simp only
        rw [ih fs ys]

theorem apply_modifications_append :
    ∀ (cs : List Change) (fs : FS) (ds : List Change),
      apply_modifications fs (cs ++ ds) =
        ((apply_modifications (apply_modifications fs cs).1 ds).1,
         (apply_modifications fs cs).2 ++
           (apply_modifications (apply_modifications fs cs).1 ds).2) := by
  intro cs
  induction cs with
  | nil => intro fs ds; rfl
  | cons ch rest ih =>
    intro fs ds
    simp only [List.cons_append, apply_modifications, List.append_eq]
    rw [ih (apply_block fs ch).1 ds]
    simp [List.append_assoc]

theorem replace_section_decomp (fs : FS) (p : FileName) (P Q S : Str) (L : List Str)
    (h0 : fsRead fs p = some (P ++ S ++ Q)) (hS : ¬ S = [])
    (hP : ∀ k ∈ List.range P.length, begins S (List.drop k (P ++ S ++ Q)) = false) :
    replace_section fs p S L =
      Except.ok (fsWrite fs p (P ++ joinNL L ++ replaceAll S (joinNL L) Q), true) := by
  have hocc : occursIn S (P ++ S ++ Q) = true := occursIn_split S P Q hS
  simp only [replace_section, h0, hocc, if_true]
  rw [replaceAll_decomp S (joinNL L) P Q hS hP]

/-! Helper lemmas about stripping and splitting. -/

theorem dropWhile_all_append (w t : Str) (hw : ∀ c ∈ w, pyIsSpace c = true) :
    List.dropWhile pyIsSpace (w ++ t) = List.dropWhile pyIsSpace t := by
  induction w with
  | nil => rfl
  | cons c w ih =>
    have hc : pyIsSpace c = true := hw c (by simp)
    rw [List.cons_append, List.dropWhile_cons_of_pos hc]
    exact ih (fun d hd => hw d (by simp [hd]))

theorem dropWhile_length_le (p : Char → Bool) (l : Str) :
    (List.dropWhile p l).length ≤ l.length := by
  induction l with
  | nil => simp
  | cons c t ih =>
    by_cases h : p c = true
    · rw [List.dropWhile_cons_of_pos h]
      simp only [List.length_cons]
      omega
    · rw [List.dropWhile_cons_of_neg (by simp [h])]

theorem dropWhile_eq_self_head (p : Char → Bool) (c : Char) (t : Str)
    (h : List.dropWhile p (c :: t) = c :: t) : p c = false := by
  by_cases hc : p c = true
  · rw [List.dropWhile_cons_of_pos hc] at h
    have := dropWhile_length_le p t
    rw [h] at this
    simp only [List.length_cons] at this
    omega
  · simpa using hc

theorem splitNl_no_nl (l : Str) (h : ¬ nl ∈ l) : splitNl l = l :: [] := by
  induction l with
  | nil => rfl
  | cons c t ih =>
    have hc : ¬ c = nl := fun hh => h (by simp [hh])
    have ht : ¬ nl ∈ t := fun hh => h (by simp [hh])
    simp only [splitNl, hc, if_false, ih ht]

theorem splitNl_append_nl (l t : Str) (h : ¬ nl ∈ l) :
    splitNl (l ++ nl :: t) = l :: splitNl t := by
  induction l with
  | nil => simp [splitNl]
  | cons c l ih =>
    have hc : ¬ c = nl := fun hh => h (by simp [hh])
    have hl : ¬ nl ∈ l := fun hh => h (by simp [hh])
    rw [List.cons_append]
    simp only [splitNl, hc, if_false, ih hl]

theorem splitNl_joinNL :
    ∀ ls : List Str, ¬ ls = [] → (∀ l ∈ ls, ¬ nl ∈ l) →
      splitNl (joinNL ls) = ls := by
  intro ls
  induction ls with
  | nil => intro h _; exact absurd rfl h
  | cons x rest ih =>
    intro _ hnl
    match rest with
    | [] => exact splitNl_no_nl x (hnl x (by simp))
    | y :: rest =>
      have hx : ¬ nl ∈ x := hnl x (by simp)
      have : joinNL (x :: y :: rest) = x ++ nl :: joinNL (y :: rest) := by
        simp [joinNL, intercal]
      rw [this, splitNl_append_nl x _ hx,
        ih (by simp) (fun l hl => hnl l (by simp [hl]))]

theorem pyStrip_all_space (w : Str) (hw : ∀ c ∈ w, pyIsSpace c = true) :
    pyStrip w = [] := by
  have h1 : List.dropWhile pyIsSpace w = [] := by
    have := dropWhile_all_append w [] hw
    simpa using this
  rw [pyStrip, h1]
  rfl

theorem pyStrip_sandwich (w1 w2 s : Str)
    (hw1 : ∀ c ∈ w1, pyIsSpace c = true) (hw2 : ∀ c ∈ w2, pyIsSpace c = true)
    (h1 : List.dropWhile pyIsSpace s = s)
    (h2 : List.dropWhile pyIsSpace s.reverse = s.reverse) :
    pyStrip (w1 ++ s ++ w2) = s := by
  rw [pyStrip, List.append_assoc, dropWhile_all_append w1 (s ++ w2) hw1]
  match s with
  | [] =>
    have hrest : List.dropWhile pyIsSpace w2 = [] := by
      have := dropWhile_all_append w2 [] hw2
      simpa using this
    simp only [List.nil_append, hrest]
    rfl
  | c :: s =>
    have hc : pyIsSpace c = false := dropWhile_eq_self_head pyIsSpace c s h1
    rw [List.cons_append, List.dropWhile_cons_of_neg (by simp [hc])]
    rw [show (c :: (s ++ w2)).reverse = w2.reverse ++ (c :: s).reverse by simp]
    rw [dropWhile_all_append w2.reverse ((c :: s).reverse)
      (fun d hd => hw2 d (List.mem_reverse.mp hd))]
    rw [h2, List.reverse_reverse]

/-! Helper lemmas about the diff rendering. -/

theorem diff_lines_length (old_content new_content : Str) :
    ∀ ops : List Opcode,
      (diff_lines old_content new_content ops).length =
        (ops.filter (fun op => !(op.tag == DiffTag.equal))).length := by
  intro ops
  induction ops with
  | nil => rfl
  | cons op rest ih =>
    match htag : op.tag with
    | DiffTag.equal =>
      simpa [diff_lines, List.filterMap_cons, opcode_line, htag, List.filter_cons] using ih
    | DiffTag.replace =>
      simpa [diff_lines, List.filterMap_cons, opcode_line, htag, List.filter_cons] using ih
    | DiffTag.delete =>
      simpa [diff_lines, List.filterMap_cons, opcode_line, htag, List.filter_cons] using ih
    | DiffTag.insert =>
      simpa [diff_lines, List.filterMap_cons, opcode_line, htag, List.filter_cons] using ih

/-! Claim theorems. -/

/-- C1, counterexample: the claim predicts that replacing the original
text a by the line b in the content aa touches only the first
occurrence, producing ba; the code routes the content through
str.replace, which replaces every occurrence, producing bb. -/
theorem C1_counterexample :
    replace_section ((("f").data, ("aa").data) :: []) (("f").data) (("a").data)
        ((("b").data) :: []) =
      Except.ok (((("f").data, ("bb").data) :: []), true) ∧
    ¬ replace_section ((("f").data, ("aa").data) :: []) (("f").data) (("a").data)
        ((("b").data) :: []) =
      Except.ok (((("f").data, ("ba").data) :: []), true) := by
  refine ⟨by decide, ?_⟩
  intro h
  have := (by decide :
    ¬ (Except.ok (((("f").data, ("bb").data) :: []), true) :
        Except Unit (FS × Bool)) =
      Except.ok (((("f").data, ("ba").data) :: []), true))
  exact this ((by decide :
    replace_section ((("f").data, ("aa").data) :: []) (("f").data) (("a").data)
        ((("b").data) :: []) =
      Except.ok (((("f").data, ("bb").data) :: []), true)) ▸ h)

/-- C1, amended claim: a ReplaceSection whose original text S begins
at no position inside the leading segment P replaces that occurrence
and then continues the same replacement over the remaining text Q, so
every later occurrence of S is replaced as well rather than left
unchanged. -/
theorem C1_replace_section_replaces_all (fs : FS) (p : FileName) (P Q S : Str)
    (L : List Str)
    (h0 : fsRead fs p = some (P ++ S ++ Q)) (hS : ¬ S = [])
    (hP : ∀ k ∈ List.range P.length, begins S (List.drop k (P ++ S ++ Q)) = false) :
    replace_section fs p S L =
      Except.ok (fsWrite fs p (P ++ joinNL L ++ replaceAll S (joinNL L) Q), true) :=
  replace_section_decomp fs p P Q S L h0 hS hP

/-- C1, witness for the amended claim at a concrete input where S
occurs twice: the trailing occurrence inside Q is replaced too. -/
theorem C1_replace_section_replaces_all_witness :
    replace_section ((("g").data, ("xaa").data) :: []) (("g").data) (("a").data)
        ((("b").data) :: []) =
      Except.ok
        (fsWrite ((("g").data, ("xaa").data) :: []) (("g").data)
          ((("x").data ++ joinNL ((("b").data) :: []) ++
            replaceAll (("a").data) (joinNL ((("b").data) :: [])) (("a").data))),
        true) :=
  C1_replace_section_replaces_all ((("g").data, ("xaa").data) :: []) (("g").data)
    (("x").data) (("a").data) (("a").data) ((("b").data) :: [])
    (by decide) (by decide) (by decide)

/-- C2: when the original text S occurs exactly once in the stored
content, expressed as content P with S nowhere beginning inside P and S
not occurring in Q, applying the single ReplaceSection action puts the
lines joined by newline in place of S and reports no unapplied
action. -/
theorem C2_replace_once (fs : FS) (p : FileName) (P Q S : Str) (L : List Str)
    (h0 : fsRead fs p = some (P ++ S ++ Q)) (hS : ¬ S = [])
    (hP : ∀ k ∈ List.range P.length, begins S (List.drop k (P ++ S ++ Q)) = false)
    (hQ : occursIn S Q = false) :
    fsRead (apply_modifications fs
        ((Change.mk p ((AiAction.replace_section S L) :: [])) :: [])).1 p =
      some (P ++ joinNL L ++ Q) ∧
    (apply_modifications fs
        ((Change.mk p ((AiAction.replace_section S L) :: [])) :: [])).2 = [] := by
  have hbak : ¬ p = bakName p := fun hh => bakName_ne p hh.symm
  have h1 : fsRead (fsWrite fs (bakName p) (P ++ S ++ Q)) p = some (P ++ S ++ Q) := by
    rw [fsRead_fsWrite_ne fs (bakName p) p _ hbak, h0]
  have hsec := replace_section_decomp (fsWrite fs (bakName p) (P ++ S ++ Q)) p P Q S L
    h1 hS hP
  rw [replaceAll_not_occurs S (joinNL L) Q hQ] at hsec
  simp only [apply_modifications, apply_block, block_start, h0, apply_actions,
    apply_action, hsec, List.append_nil]
  exact ⟨fsRead_fsWrite_self _ p _, rfl⟩

/-- C2, witness: content xay, original a, lines b apply to give xby
with nothing unapplied. -/
theorem C2_replace_once_witness :
    fsRead (apply_modifications ((("h").data, ("xay").data) :: [])
        ((Change.mk (("h").data)
          ((AiAction.replace_section (("a").data) ((("b").data) :: [])) :: [])) :: [])).1
        (("h").data) =
      some (("x").data ++ joinNL ((("b").data) :: []) ++ ("y").data) ∧
    (apply_modifications ((("h").data, ("xay").data) :: [])
        ((Change.mk (("h").data)
          ((AiAction.replace_section (("a").data) ((("b").data) :: [])) :: [])) :: [])).2 = [] :=
  C2_replace_once ((("h").data, ("xay").data) :: []) (("h").data)
    (("x").data) (("y").data) (("a").data) ((("b").data) :: [])
    (by decide) (by decide) (by decide) (by decide)

/-- C3: when the original text S does not occur in the stored content,
the single ReplaceSection action leaves the target content unchanged
and the action is reported unapplied. -/
theorem C3_not_found_unapplied (fs : FS) (p : FileName) (C S : Str) (L : List Str)
    (h0 : fsRead fs p = some C) (h : occursIn S C = false) :
    fsRead (apply_modifications fs
        ((Change.mk p ((AiAction.replace_section S L) :: [])) :: [])).1 p = some C ∧
    (apply_modifications fs
        ((Change.mk p ((AiAction.replace_section S L) :: [])) :: [])).2 =
      ((p, AiAction.replace_section S L) :: []) := by
  have hbak : ¬ p = bakName p := fun hh => bakName_ne p hh.symm
  have h1 : fsRead (fsWrite fs (bakName p) C) p = some C := by
    rw [fsRead_fsWrite_ne fs (bakName p) p _ hbak, h0]
  have hsec : replace_section (fsWrite fs (bakName p) C) p S L =
      Except.ok (fsWrite fs (bakName p) C, false) := by
    simp only [replace_section, h1, h]
    simp
  simp only [apply_modifications, apply_block, block_start, h0, apply_actions,
    apply_action, hsec, List.append_nil]
  exact ⟨h1, rfl⟩

/-- C3, witness: original a does not occur in content xy; the content
is unchanged and the action is reported. -/
theorem C3_not_found_unapplied_witness :
    fsRead (apply_modifications ((("k").data, ("xy").data) :: [])
        ((Change.mk (("k").data)
          ((AiAction.replace_section (("a").data) ((("b").data) :: [])) :: [])) :: [])).1
        (("k").data) = some (("xy").data) ∧
    (apply_modifications ((("k").data, ("xy").data) :: [])
        ((Change.mk (("k").data)
          ((AiAction.replace_section (("a").data) ((("b").data) :: [])) :: [])) :: [])).2 =
      (((("k").data), AiAction.replace_section (("a").data) ((("b").data) :: [])) :: []) :=
  C3_not_found_unapplied ((("k").data, ("xy").data) :: []) (("k").data)
    (("xy").data) (("a").data) ((("b").data) :: []) (by decide) (by decide)

/-- C4: apply is a total function on the embedded state, reflecting
that the loop catches every per-action exception; a failing action
anywhere in a list of change blocks is recorded in the returned
unapplied list, and the remaining actions of its block and the
remaining blocks still run, from the post-failure state. -/
theorem C4_failed_action_recorded (fs : FS) (cs ds : List Change) (p : FileName)
    (xs ys : List AiAction) (a : AiAction)
    (hfail : action_fails
      (apply_actions p (block_start (apply_modifications fs cs).1 p) xs).1 p a = true) :
    ((p, a) ∈ (apply_modifications fs (cs ++ (Change.mk p (xs ++ a :: ys)) :: ds)).2) ∧
    (apply_modifications fs (cs ++ (Change.mk p (xs ++ a :: ys)) :: ds)).1 =
      (apply_modifications
        (apply_actions p
          (state_after_fail
            ((apply_actions p (block_start (apply_modifications fs cs).1 p) xs).1) p a)
          ys).1 ds).1 := by
  have hstep : apply_actions p
      (apply_actions p (block_start (apply_modifications fs cs).1 p) xs).1 (a :: ys) =
      ((apply_actions p (state_after_fail
        ((apply_actions p (block_start (apply_modifications fs cs).1 p) xs).1) p a) ys).1,
       (p, a) :: (apply_actions p (state_after_fail
        ((apply_actions p (block_start (apply_modifications fs cs).1 p) xs).1) p a) ys).2) := by
    match hap : apply_action
        (apply_actions p (block_start (apply_modifications fs cs).1 p) xs).1 p a with
    | Except.ok (fs1, ok) =>
      have hok : ok = false := by
        simp only [action_fails, hap, Bool.not_eq_true'] at hfail
        exact hfail
      subst hok
      simp only [apply_actions, state_after_fail, hap]
      simp
    | Except.error u =>
      simp only [apply_actions, state_after_fail, hap]
  rw [apply_modifications_append cs fs ((Change.mk p (xs ++ a :: ys)) :: ds)]
  simp only [apply_modifications, apply_block]
  rw [apply_actions_append p xs (block_start (apply_modifications fs cs).1 p) (a :: ys)]
  rw [hstep]
  constructor
  · simp
  · rfl

/-- C4, witness: removing a missing file fails; the action is recorded
unapplied and a later create action in the same block still runs. -/
theorem C4_failed_action_recorded_witness :
    ((("f").data, AiAction.remove_file) ∈
      (apply_modifications []
        ((Change.mk (("f").data)
          (AiAction.remove_file ::
            (AiAction.create_file ((("x").data) :: [])) :: [])) :: [])).2) ∧
    (apply_modifications []
      ((Change.mk (("f").data)
        (AiAction.remove_file ::
          (AiAction.create_file ((("x").data) :: [])) :: [])) :: [])).1 =
      (apply_modifications
        (apply_actions (("f").data)
          (state_after_fail
            ((apply_actions (("f").data) (block_start (apply_modifications [] []).1 (("f").data)) []).1)
            (("f").data) AiAction.remove_file)
          ((AiAction.create_file ((("x").data) :: [])) :: [])).1 []).1 := by
  have h := C4_failed_action_recorded [] [] [] (("f").data) []
    ((AiAction.create_file ((("x").data) :: [])) :: []) AiAction.remove_file (by decide)
  exact h

/-- C5: with an existing target, the block loop starts from a state in
which the target has been copied to its backup path; when an action
raises, the action is recorded unapplied, the target is restored from
the backup content, and the later actions of the same block run against
that restored state. -/
theorem C5_error_restores_backup (fs : FS) (p : FileName) (c : Str)
    (xs ys : List AiAction) (a : AiAction)
    (hc : fsRead fs p = some c)
    (herr : apply_action (apply_actions p (fsWrite fs (bakName p) c) xs).1 p a =
      Except.error ()) :
    block_start fs p = fsWrite fs (bakName p) c ∧
    fsRead (block_start fs p) (bakName p) = some c ∧
    ((p, a) ∈ (apply_block fs (Change.mk p (xs ++ a :: ys))).2) ∧
    (apply_block fs (Change.mk p (xs ++ a :: ys))).1 =
      (apply_actions p
        (fsWrite (apply_actions p (fsWrite fs (bakName p) c) xs).1 p c) ys).1 ∧
    fsRead (fsWrite (apply_actions p (fsWrite fs (bakName p) c) xs).1 p c) p = some c := by
  have hbs : block_start fs p = fsWrite fs (bakName p) c := by
    simp only [block_start, hc]
  have hGbak : fsRead (apply_actions p (fsWrite fs (bakName p) c) xs).1 (bakName p) =
      some c := by
    rw [apply_actions_read_ne p (bakName p) (bakName_ne p) xs (fsWrite fs (bakName p) c)]
    exact fsRead_fsWrite_self fs (bakName p) c
  have hstep : apply_actions p (apply_actions p (fsWrite fs (bakName p) c) xs).1 (a :: ys) =
      ((apply_actions p
          (fsWrite (apply_actions p (fsWrite fs (bakName p) c) xs).1 p c) ys).1,
       (p, a) :: (apply_actions p
          (fsWrite (apply_actions p (fsWrite fs (bakName p) c) xs).1 p c) ys).2) := by
    simp only [apply_actions, herr, hGbak]
  refine ⟨hbs, ?_, ?_, ?_, ?_⟩
  · rw [hbs]
    exact fsRead_fsWrite_self fs (bakName p) c
  · simp only [apply_block, hbs]
    rw [apply_actions_append p xs (fsWrite fs (bakName p) c) (a :: ys), hstep]
    simp
  · simp only [apply_block, hbs]
    rw [apply_actions_append p xs (fsWrite fs (bakName p) c) (a :: ys), hstep]
  · exact fsRead_fsWrite_self _ p c

/-- C5, witness: the file f holds ab and is backed up; a remove action
deletes it, the next replace section action raises on the missing file,
f is restored to ab from the backup, and the block continues. -/
theorem C5_error_restores_backup_witness :
    block_start ((("f").data, ("ab").data) :: []) (("f").data) =
      fsWrite ((("f").data, ("ab").data) :: []) (bakName (("f").data)) (("ab").data) ∧
    fsRead (block_start ((("f").data, ("ab").data) :: []) (("f").data))
      (bakName (("f").data)) = some (("ab").data) ∧
    ((("f").data, AiAction.replace_section (("a").data) ((("z").data) :: [])) ∈
      (apply_block ((("f").data, ("ab").data) :: [])
        (Change.mk (("f").data)
          (AiAction.remove_file ::
            (AiAction.replace_section (("a").data) ((("z").data) :: [])) :: []))).2) ∧
    (apply_block ((("f").data, ("ab").data) :: [])
      (Change.mk (("f").data)
        (AiAction.remove_file ::
          (AiAction.replace_section (("a").data) ((("z").data) :: [])) :: []))).1 =
      (apply_actions (("f").data)
        (fsWrite (apply_actions (("f").data)
          (fsWrite ((("f").data, ("ab").data) :: []) (bakName (("f").data)) (("ab").data))
          (AiAction.remove_file :: [])).1 (("f").data) (("ab").data)) []).1 ∧
    fsRead (fsWrite (apply_actions (("f").data)
        (fsWrite ((("f").data, ("ab").data) :: []) (bakName (("f").data)) (("ab").data))
        (AiAction.remove_file :: [])).1 (("f").data) (("ab").data)) (("f").data) =
      some (("ab").data) :=
  C5_error_restores_backup ((("f").data, ("ab").data) :: []) (("f").data) (("ab").data)
    (AiAction.remove_file :: []) []
    (AiAction.replace_section (("a").data) ((("z").data) :: []))
    (by decide) (by decide)

/-- C6, counterexample: the claim says only trailing whitespace of the
whole payload is trimmed, so the leading space of the first line of the
payload consisting of a space and the letter a would be preserved; the
code strips both ends of the payload, losing that leading space. -/
theorem C6_counterexample :
    parse_payload ((" a").data) = ((("a").data) :: []) ∧
    ¬ parse_payload ((" a").data) = (((" a").data) :: []) := by decide

/-- C6, amended claim: both leading and trailing whitespace of the
whole payload are trimmed before splitting; the inner lines, including
internal blank lines and the leading whitespace of every line after the
stripped ends, are recovered verbatim. -/
theorem C6_payload_round_trip (ls : List Str) (w1 w2 : Str)
    (hw1 : ∀ c ∈ w1, pyIsSpace c = true) (hw2 : ∀ c ∈ w2, pyIsSpace c = true)
    (hne : ¬ ls = []) (hnl : ∀ l ∈ ls, ¬ nl ∈ l)
    (h1 : List.dropWhile pyIsSpace (joinNL ls) = joinNL ls)
    (h2 : List.dropWhile pyIsSpace (joinNL ls).reverse = (joinNL ls).reverse) :
    parse_payload (w1 ++ joinNL ls ++ w2) = ls := by
  rw [parse_payload, pyStrip_sandwich w1 w2 (joinNL ls) hw1 hw2 h1 h2,
    splitNl_joinNL ls hne hnl]

/-- C6, witness: a payload of three lines, the middle one blank and the
last one tab-indented, surrounded by a leading newline and trailing
whitespace, parses back to exactly those three lines. -/
theorem C6_payload_round_trip_witness :
    parse_payload ((("\n").data) ++
        joinNL ((("a").data) :: (("").data) :: (("\tb").data) :: []) ++ (("\n ").data)) =
      ((("a").data) :: (("").data) :: (("\tb").data) :: []) :=
  C6_payload_round_trip ((("a").data) :: (("").data) :: (("\tb").data) :: [])
    (("\n").data) (("\n ").data)
    (by decide) (by decide) (by decide) (by decide) (by decide) (by decide)

/-- C7, counterexample: for an empty old text and a new text of eleven
newline characters, the single insert opcode is the valid cover, yet
the rendered summary has twelve physical lines, more than ten; the ten
bound caps entries, not physical lines. -/
theorem C7_counterexample :
    opcodesValid [] (List.replicate 11 nl)
      ((Opcode.mk DiffTag.insert 0 0 0 11) :: []) = true ∧
    numLines (generate_diff [] (List.replicate 11 nl)
      ((Opcode.mk DiffTag.insert 0 0 0 11) :: [])) = 12 := by decide

/-- C7, amended claim: the summary renders one entry per non-equal
opcode and none for equal opcodes, and keeps at most the first ten
entries; an entry may itself span several physical lines. -/
theorem C7_diff_entry_bound (old_content new_content : Str) (ops : List Opcode) :
    ((diff_lines old_content new_content ops).take 10).length ≤ 10 ∧
    (diff_lines old_content new_content ops).length =
      (ops.filter (fun op => !(op.tag == DiffTag.equal))).length := by
  constructor
  · rw [List.length_take]
    exact min_le_left 10 _
  · exact diff_lines_length old_content new_content ops

/-- C10: a whitespace-only payload between present delimiters parses
to the single empty line, and applying the resulting create or replace
action writes exactly one newline character, not empty content. -/
theorem C10_empty_payload_single_newline (w : Str) (hw : ∀ c ∈ w, pyIsSpace c = true)
    (fs : FS) (p : FileName) :
    parse_create_action w = AiAction.create_file ([] :: []) ∧
    parse_replace_file_action w = AiAction.replace_file ([] :: []) ∧
    apply_action fs p (AiAction.create_file ([] :: [])) =
      Except.ok (fsWrite fs p (nl :: []), true) ∧
    apply_action fs p (AiAction.replace_file ([] :: [])) =
      Except.ok (fsWrite fs p (nl :: []), true) ∧
    fsRead (fsWrite fs p (nl :: [])) p = some (nl :: []) := by
  have hpp : parse_payload w = ([] :: []) := by
    rw [parse_payload, pyStrip_all_space w hw]
    rfl
  refine ⟨?_, ?_, ?_, ?_, fsRead_fsWrite_self fs p _⟩
  · rw [parse_create_action, hpp]
  · rw [parse_replace_file_action, hpp]
  · simp [apply_action, joinNL, intercal]
  · simp [apply_action, joinNL, intercal]

/-- C10, witness: the payload holding a single newline on an empty
tree and the path f. -/
theorem C10_empty_payload_single_newline_witness :
    parse_create_action (("\n").data) = AiAction.create_file ([] :: []) ∧
    parse_replace_file_action (("\n").data) = AiAction.replace_file ([] :: []) ∧
    apply_action [] (("f").data) (AiAction.create_file ([] :: [])) =
      Except.ok (fsWrite [] (("f").data) (nl :: []), true) ∧
    apply_action [] (("f").data) (AiAction.replace_file ([] :: [])) =
      Except.ok (fsWrite [] (("f").data) (nl :: []), true) ∧
    fsRead (fsWrite [] (("f").data) (nl :: [])) (("f").data) = some (nl :: []) :=
  C10_empty_payload_single_newline (("\n").data) (by decide) [] (("f").data)

/-- C8: with a committed watermark w, the batching query returns
exactly the notes whose created or modified timestamp is strictly
greater than w, and a cycle whose batch is empty leaves the database
unchanged, committing no version. -/
theorem C8_batching_watermark (db : DB) (gen diffFn : Str → Str → Str) (now : Nat) :
    (∀ w, maxTimestamp db.history = some w →
      ∀ n, n ∈ get_new_notes_since_revision db ↔
        (n ∈ db.notes ∧ (w < n.created_at ∨ w < n.modified_at))) ∧
    (get_new_notes_since_revision db = [] →
      worker_pass gen diffFn now db = db) := by
  constructor
  · intro w hw n
    rw [get_new_notes_since_revision, hw, List.mem_filter]
    constructor
    · rintro ⟨h1, h2⟩
      refine ⟨h1, ?_⟩
      simpa using h2
    · rintro ⟨h1, h2⟩
      refine ⟨h1, ?_⟩
      simpa using h2
  · intro hempty
    simp only [worker_pass, hempty]

/-- C8, witness: a note stamped after watermark five is in the batch
with the characterizing bound satisfied, and a pass over an empty
database commits nothing. -/
theorem C8_batching_watermark_witness :
    ((Note.mk 1 (("x").data) 6 6 false) ∈
      get_new_notes_since_revision
        (DB.mk ((Note.mk 1 (("x").data) 6 6 false) :: [])
          ((Version.mk 1 5 [] []) :: [])) ↔
      ((Note.mk 1 (("x").data) 6 6 false) ∈
        (DB.mk ((Note.mk 1 (("x").data) 6 6 false) :: [])
          ((Version.mk 1 5 [] []) :: [])).notes ∧
       (5 < (Note.mk 1 (("x").data) 6 6 false).created_at ∨
        5 < (Note.mk 1 (("x").data) 6 6 false).modified_at))) ∧
    worker_pass (fun _ _ => []) (fun _ _ => []) 9 (DB.mk [] []) = DB.mk [] [] := by
  refine ⟨?_, ?_⟩
  · exact (C8_batching_watermark
      (DB.mk ((Note.mk 1 (("x").data) 6 6 false) :: [])
        ((Version.mk 1 5 [] []) :: []))
      (fun _ _ => []) (fun _ _ => []) 9).1 5 (by decide) (Note.mk 1 (("x").data) 6 6 false)
  · exact (C8_batching_watermark (DB.mk [] []) (fun _ _ => []) (fun _ _ => []) 9).2
      (by decide)

/-- C9: evaluation at the failing input.  Note 1 was edited from the
content a to the content b, so its row holds b; the worker re-fetches
the content column of that same already-updated row as the original,
and the rendered CHANGED instruction therefore carries the new content
in both slots while the pre-edit content a appears nowhere in it. -/
theorem C9_changed_instruction_lacks_original :
    instruction_for_note ((Note.mk 1 (("b").data) 0 1 false) :: [])
        (Note.mk 1 (("b").data) 0 1 false) =
      ("CHANGED: Note ID 1 modified from:\nb\n\nTO:\nb").data ∧
    occursIn (("a").data)
      (instruction_for_note ((Note.mk 1 (("b").data) 0 1 false) :: [])
        (Note.mk 1 (("b").data) 0 1 false)) = false := by decide
